import Mathlib

/-!
Shallow embedding of the Carcassonne terminal game core
(`carcasonne-core`, `carcasonne-text-ui`, `carcasonne-app`):
the layout/rendering engine (Point, Size, Node, Frame), the game
context's tile draw pool, the hierarchical presentation state
machine (Menu / PlayingPhase(SelectTile|PlaceTile) / Stop), and the
driver loop — together with proofs of the specified properties.

Rust `usize` values are modelled as `Nat` (coordinates and sizes are
non-negative and never overflow in these computations).  Rust `&str`
is modelled as its list of characters together with the UTF-8 byte
length (`String::len` in Rust counts bytes, not characters).
Fallible operations (the out-of-bounds panic of `Frame::set_cell`)
return `Option`.  The random shuffle of `GameContext` is modelled by
an explicit `shuffle` function parameter, assumed (where needed) to
permute its input.
-/

namespace Carcasonne

/-! ## Layout primitives: `Point` and `Size`
(`carcasonne-core/src/layout/point.rs`, `size.rs`) -/

/-- Rust `Point` — a 2D point with non-negative integer coordinates
(`layout/point.rs`). -/
structure Point where
  x : Nat
  y : Nat
deriving DecidableEq

namespace Point

/-- Rust `Point::new`. -/
def new (x y : Nat) : Point := ⟨x, y⟩

/-- Rust `Point::zero` — the origin `(0, 0)`. -/
def zero : Point := new 0 0

/-- Rust `impl Add<Point> for Point` — componentwise addition. -/
def add (a b : Point) : Point := ⟨a.x + b.x, a.y + b.y⟩

instance : Add Point := ⟨Point.add⟩

end Point

/-- Rust `Size` — a 2D size with `width` and `height` (`layout/size.rs`). -/
structure Size where
  width : Nat
  height : Nat
deriving DecidableEq

namespace Size

/-- Rust `Size::new`. -/
def new (width height : Nat) : Size := ⟨width, height⟩

/-- Rust `impl Add for Size` — componentwise addition. -/
def add (a b : Size) : Size := ⟨a.width + b.width, a.height + b.height⟩

instance : Add Size := ⟨Size.add⟩

end Size

/-! ## Tile data model (`carcasonne-core/src/model/`) -/

/-- Rust `Edge` — one of the four edges of a tile (`model/tile_feature.rs`). -/
inductive Edge where
  | north
  | west
  | east
  | south
deriving DecidableEq

/-- The concrete implementors of the `TileFeatureType` trait
(`Town`, `Road` in `model/tile_feature.rs`). -/
inductive TileFeatureType where
  | town
  | road
deriving DecidableEq

/-- The concrete implementor of `TileFeatureEnhancement`
(`Shield` in `model/tile_feature.rs`). -/
inductive TileFeatureEnhancement where
  | shield
deriving DecidableEq

/-- Rust `TileFeature` — a feature present on a tile (`model/tile_feature.rs`). -/
structure TileFeature where
  feature_type : TileFeatureType
  edges : List Edge
  enhancement : Option TileFeatureEnhancement
deriving DecidableEq

/-- The concrete implementor of the `TileExtension` trait
(`Abbey` in `model/tile_extension.rs`). -/
inductive TileExtension where
  | abbey
deriving DecidableEq

/-- Rust `Tile` — a game tile (`model/tile.rs`). -/
structure Tile where
  tile_features : List TileFeature
  tile_extension : Option TileExtension
deriving DecidableEq

/-- A contentless dummy tile (as used by the repository's own tests). -/
def dummy_tile : Tile := ⟨[], Option.none⟩

/-! ## Layout nodes (`carcasonne-core/src/layout/node.rs`) -/

/-- Rust `Node` — the recursive layout tree.  Rust's `Text(&str)` field is
modelled as the string's list of characters; `Vec<Box<Node>>` as
`List Node`. -/
inductive Node where
  /-- Rust `Node::None` — nothing to display. -/
  | none
  /-- Rust `Node::Char` — a single character. -/
  | char (c : Char)
  /-- Rust `Node::Text` — a horizontal string of characters. -/
  | text (s : List Char)
  /-- Rust `Node::Tile` — a tile to render. -/
  | tile (t : Tile)
  /-- Rust `Node::VerticalContainer` — stacks children top-to-bottom. -/
  | verticalContainer (elems : List Node)
  /-- Rust `Node::HorizontalContainer` — lays children left-to-right. -/
  | horizontalContainer (elems : List Node)
  /-- Rust `Node::Framed` — a drawn border around a single child. -/
  | framed (elem : Node)

/-- Rust `TILE_SIZE` — the fixed grid size used to render a `Tile` node
(`carcasonne-text-ui/src/renderable/node.rs`). -/
def TILE_SIZE : Nat := 5

/-- Rust `str::len` — the UTF-8 byte length of a string, i.e. the sum
of the UTF-8 sizes of its characters. -/
def strLen (s : List Char) : Nat :=
  s.foldl (fun acc c => acc + c.utf8Size) 0

mutual

/-- Rust `Node::size` (the `Renderable` impl in
`carcasonne-text-ui/src/renderable/node.rs`): the space required to
render the node, computed bottom-up. -/
def Node.size : Node → Size
  | .none => Size.new 0 0
  | .char _ => Size.new 1 1
  | .text s => Size.new (strLen s) 1
  | .tile _ => Size.new TILE_SIZE TILE_SIZE
  | .verticalContainer elems =>
      (Node.sizes elems).foldl
        (fun acc s => Size.new (Nat.max acc.width s.width) (acc.height + s.height))
        (Size.new 0 0)
  | .horizontalContainer elems =>
      (Node.sizes elems).foldl
        (fun acc s => Size.new (acc.width + s.width) (Nat.max acc.height s.height))
        (Size.new 0 0)
  | .framed elem => Node.size elem + Size.new 2 2

/-- Rust `elems.iter().map(|e| e.size())` — the sizes of a list of nodes. -/
def Node.sizes : List Node → List Size
  | [] => []
  | e :: es => Node.size e :: Node.sizes es

end

/-! ## The character frame buffer
(`carcasonne-text-ui/src/color.rs`, `char_drawing.rs`, `frame.rs`) -/

/-- Rust `Color` — basic rendering colors (`color.rs`). -/
inductive Color where
  | black
  | white
  | red
  | blue
deriving DecidableEq

/-- Rust `CharDrawing` — box-drawing characters (`char_drawing.rs`). -/
inductive CharDrawing where
  | none
  | cornerTopLeft
  | cornerTopRight
  | cornerBottomLeft
  | cornerBottomRight
  | horizontal
  | vertical
deriving DecidableEq

/-- Rust `impl From<CharDrawing> for char` (`char_drawing.rs`). -/
def CharDrawing.toChar : CharDrawing → Char
  | .none => ' '
  | .cornerTopLeft => '┌'
  | .cornerTopRight => '┐'
  | .cornerBottomLeft => '└'
  | .cornerBottomRight => '┘'
  | .horizontal => '─'
  | .vertical => '│'

/-- Rust `Cell` — one character cell of the frame (`frame.rs`). -/
structure Cell where
  symbol : Char
  background_color : Color
  foreground_color : Color
deriving DecidableEq

/-- Rust `Frame` — a fixed-size 2D buffer of cells, indexed `cells[y][x]`
(`frame.rs`). -/
structure Frame where
  size : Size
  cells : List (List Cell)
deriving DecidableEq

namespace Frame

/-- The initial cell of a fresh frame: a space on black with white
foreground. -/
def blankCell : Cell :=
  ⟨CharDrawing.none.toChar, Color.black, Color.white⟩

/-- Rust `Frame::new` — a frame of the given size filled with blank cells. -/
def new (size : Size) : Frame :=
  ⟨size, List.replicate size.height (List.replicate size.width blankCell)⟩

/-- Rust `Frame::set_cell`.  The Rust function asserts that the point is in
bounds and panics otherwise; the panic is modelled as `Option.none`. -/
def set_cell (f : Frame) (point : Point) (cell : Cell) : Option Frame :=
  if point.y < f.size.height ∧ point.x < f.size.width then
    Option.some
      ⟨f.size, f.cells.set point.y ((f.cells.getD point.y []).set point.x cell)⟩
  else
    Option.none

/-- Rust `Frame::char` — draw a character with explicit colors. -/
def char (f : Frame) (point : Point) (c : Char)
    (foreground_color background_color : Color) : Option Frame :=
  f.set_cell point ⟨c, background_color, foreground_color⟩

/-- Rust `Frame::char_simple` — white foreground on black background. -/
def char_simple (f : Frame) (point : Point) (c : Char) : Option Frame :=
  f.char point c Color.white Color.black

/-- Read the cell at a point (out-of-range reads give `blankCell`;
they never occur on well-formed frames). -/
def cellAt (f : Frame) (point : Point) : Cell :=
  (f.cells.getD point.y []).getD point.x blankCell

end Frame

/-! ## The node renderer
(`carcasonne-text-ui/src/renderable/node.rs`, `NodeRenderer` and the
`Renderable` impl for `Node`).  Each painting step threads the frame
through `Option`: `Option.none` marks the unreachable out-of-bounds
panic of `Frame::set_cell`. -/

namespace NodeRenderer

/-- Rust `NodeRenderer::render_char`. -/
def render_char (f : Frame) (point : Point) (c : Char) : Option Frame :=
  f.char_simple point c

/-- The `str.chars().enumerate().for_each(...)` loop of
`NodeRenderer::render_text`: paint character `i` at
`point + (i, 0)`. -/
def render_text_go (f : Frame) (point : Point) (i : Nat) :
    List Char → Option Frame
  | [] => Option.some f
  | c :: cs => do
      let f' ← f.char_simple (point + Point.new i 0) c
      render_text_go f' point (i + 1) cs

/-- Rust `NodeRenderer::render_text`. -/
def render_text (f : Frame) (point : Point) (s : List Char) : Option Frame :=
  render_text_go f point 0 s

/-- The inner loop of `NodeRenderer::render_tile`: paint the cells of
row `i` (a list of characters), column index `j` onward, each at
`point + (i, j)` (the Rust code uses the row index as the x offset). -/
def render_tile_row (f : Frame) (point : Point) (i j : Nat) :
    List Char → Option Frame
  | [] => Option.some f
  | c :: cs => do
      let f' ← f.char_simple (point + Point.new i j) c
      render_tile_row f' point i (j + 1) cs

/-- The outer loop of `NodeRenderer::render_tile` over the rows. -/
def render_tile_rows (f : Frame) (point : Point) (i : Nat) :
    List (List Char) → Option Frame
  | [] => Option.some f
  | row :: rest => do
      let f' ← render_tile_row f point i 0 row
      render_tile_rows f' point (i + 1) rest

/-- Rust `NodeRenderer::render_tile` — a `TILE_SIZE × TILE_SIZE` square of
placeholder `.` characters, independent of the tile's content. -/
def render_tile (f : Frame) (point : Point) (_t : Tile) : Option Frame :=
  render_tile_rows f point 0
    (List.replicate TILE_SIZE (List.replicate TILE_SIZE '.'))

/-- Paint one character at every x in `[x0, x0 + count)` on row `y`
(the `for x in a..b` border loops of `render_framed`). -/
def render_hrun (f : Frame) (y : Nat) (x0 count : Nat) (c : Char) :
    Option Frame :=
  match count with
  | 0 => Option.some f
  | count + 1 => do
      let f' ← f.char_simple (Point.new x0 y) c
      render_hrun f' y (x0 + 1) count c

/-- Paint one character at every y in `[y0, y0 + count)` on the two
columns `xl` and `xr` (the middle-row loop of `render_framed`). -/
def render_vrun2 (f : Frame) (xl xr : Nat) (y0 count : Nat) (c : Char) :
    Option Frame :=
  match count with
  | 0 => Option.some f
  | count + 1 => do
      let f' ← f.char_simple (Point.new xl y0) c
      let f'' ← f'.char_simple (Point.new xr y0) c
      render_vrun2 f'' xl xr (y0 + 1) count c

/-- The border-painting part of `NodeRenderer::render_framed`: the
outer size is `inner_size + (2,2)`; corners, horizontal edges and
vertical edges are drawn with the `CharDrawing` glyphs.  With
`x1 = x0 + outer.width - 1` and `y1 = y0 + outer.height - 1`, the
ranges `(x0+1)..x1` and `(y0+1)..y1` contain `inner_size.width`
resp. `inner_size.height` positions. -/
def render_border (f : Frame) (point : Point) (inner_size : Size) :
    Option Frame := do
  let f1 ← f.char_simple (Point.new point.x point.y)
    CharDrawing.cornerTopLeft.toChar
  let f2 ← render_hrun f1 point.y (point.x + 1) inner_size.width
    CharDrawing.horizontal.toChar
  let f3 ← f2.char_simple (Point.new (point.x + inner_size.width + 1) point.y)
    CharDrawing.cornerTopRight.toChar
  let f4 ← render_vrun2 f3 point.x (point.x + inner_size.width + 1)
    (point.y + 1) inner_size.height CharDrawing.vertical.toChar
  let f5 ← f4.char_simple (Point.new point.x (point.y + inner_size.height + 1))
    CharDrawing.cornerBottomLeft.toChar
  let f6 ← render_hrun f5 (point.y + inner_size.height + 1) (point.x + 1)
    inner_size.width CharDrawing.horizontal.toChar
  f6.char_simple
    (Point.new (point.x + inner_size.width + 1) (point.y + inner_size.height + 1))
    CharDrawing.cornerBottomRight.toChar

end NodeRenderer

mutual

/-- Rust `Node::render` (the `Renderable` impl in
`carcasonne-text-ui/src/renderable/node.rs`): paint the node into the
frame at the given top-left point.  `Option.none` marks the
out-of-bounds panic. -/
def Node.render : Node → Frame → Point → Option Frame
  | .none, f, _ => Option.some f
  | .char c, f, p => NodeRenderer.render_char f p c
  | .text s, f, p => NodeRenderer.render_text f p s
  | .tile t, f, p => NodeRenderer.render_tile f p t
  | .verticalContainer elems, f, p =>
      Node.vertical_container elems f p.x p.y
  | .horizontalContainer elems, f, p =>
      Node.horizontal_container elems f p.x p.y
  | .framed elem, f, p => do
      let f' ← NodeRenderer.render_border f p elem.size
      Node.render elem f' (p + Point.new 1 1)

/-- Rust `NodeRenderer::vertical_container`: children are painted at the
same x, each below the previous (`current_y` accumulates heights). -/
def Node.vertical_container : List Node → Frame → Nat → Nat → Option Frame
  | [], f, _, _ => Option.some f
  | e :: es, f, x, current_y => do
      let f' ← Node.render e f (Point.new x current_y)
      Node.vertical_container es f' x (current_y + e.size.height)

/-- Rust `NodeRenderer::horizontal_container`: children are painted at the
same y, each to the right of the previous (`current_x` accumulates
widths). -/
def Node.horizontal_container : List Node → Frame → Nat → Nat → Option Frame
  | [], f, _, _ => Option.some f
  | e :: es, f, current_x, y => do
      let f' ← Node.render e f (Point.new current_x y)
      Node.horizontal_container es f' (current_x + e.size.width) y

end

/-- Rust `impl From<Node> for Frame` (`frame.rs`): create a frame of exactly
the node's computed size and render the node at the origin. -/
def Frame.from_node (value : Node) : Option Frame :=
  Node.render value (Frame.new value.size) Point.zero

/-! ## Frame well-formedness and cell-level lemmas -/

/-- A frame is well-formed when its `cells` grid really has the
dimensions recorded in `size` (true of `Frame::new` and preserved by
every write). -/
def Frame.WF (f : Frame) : Prop :=
  f.cells.length = f.size.height ∧ ∀ row ∈ f.cells, row.length = f.size.width

theorem Frame.new_WF (size : Size) : (Frame.new size).WF := by
  constructor
  · simp [Frame.new]
  · intro row hrow
    simp only [Frame.new] at hrow
    have := List.eq_of_mem_replicate hrow
    simp [this, Frame.new]

theorem getD_set_self {α : Type} (l : List α) (i : Nat) (a d : α)
    (h : i < l.length) : (l.set i a).getD i d = a := by
  induction l generalizing i with
  | nil => simp at h
  | cons x xs ih =>
    cases i with
    | zero => simp [List.set, List.getD]
    | succ j =>
      simp only [List.set, List.getD_cons_succ]
      exact ih j (by simpa using h)

theorem getD_set_of_ne {α : Type} (l : List α) (i j : Nat) (a d : α)
    (h : i ≠ j) : (l.set i a).getD j d = l.getD j d := by
  induction l generalizing i j with
  | nil => simp [List.set]
  | cons x xs ih =>
    cases i with
    | zero =>
      cases j with
      | zero => exact absurd rfl h
      | succ j' => simp [List.set, List.getD]
    | succ i' =>
      cases j with
      | zero => simp [List.set, List.getD]
      | succ j' =>
        simp only [List.set, List.getD_cons_succ]
        exact ih i' j' (by intro he; exact h (by rw [he]))

theorem getD_mem_of_lt {α : Type} (l : List α) (j : Nat) (d : α)
    (h : j < l.length) : l.getD j d ∈ l := by
  induction l generalizing j with
  | nil => simp at h
  | cons x xs ih =>
    cases j with
    | zero => simp [List.getD]
    | succ j' =>
      simp only [List.getD_cons_succ]
      exact List.mem_cons_of_mem x (ih j' (by simpa using h))

/-- Rust `Frame::set_cell` succeeds exactly on in-bounds points. -/
theorem Frame.set_cell_isSome_iff (f : Frame) (p : Point) (c : Cell) :
    (f.set_cell p c).isSome = true ↔
      (p.y < f.size.height ∧ p.x < f.size.width) := by
  by_cases h : p.y < f.size.height ∧ p.x < f.size.width
  · simp [Frame.set_cell, h]
  · simp [Frame.set_cell, h]

/-- Characterisation of a successful `set_cell`: the written cell is
at `p`, all other positions are unchanged, and size and
well-formedness are preserved. -/
theorem Frame.set_cell_spec (f : Frame) (p : Point) (c : Cell)
    (hwf : f.WF) (hy : p.y < f.size.height) (hx : p.x < f.size.width) :
    ∃ f', f.set_cell p c = Option.some f' ∧ f'.size = f.size ∧ f'.WF ∧
      f'.cellAt p = c ∧
      ∀ q : Point, (q.x ≠ p.x ∨ q.y ≠ p.y) → f'.cellAt q = f.cellAt q := by
  obtain ⟨hlen, hrows⟩ := hwf
  have hylen : p.y < f.cells.length := by rw [hlen]; exact hy
  have hrowmem : f.cells.getD p.y [] ∈ f.cells := getD_mem_of_lt _ _ _ hylen
  have hrowlen : (f.cells.getD p.y []).length = f.size.width :=
    hrows _ hrowmem
  refine ⟨⟨f.size, f.cells.set p.y ((f.cells.getD p.y []).set p.x c)⟩,
    by simp [Frame.set_cell, hy, hx], rfl, ?_, ?_, ?_⟩
  · constructor
    · simpa using hlen
    · intro row hrow
      rcases List.mem_or_eq_of_mem_set hrow with hmem | heq
      · exact hrows _ hmem
      · rw [heq, List.length_set]
        exact hrowlen
  · show ((f.cells.set p.y _).getD p.y []).getD p.x Frame.blankCell = c
    rw [getD_set_self _ _ _ _ hylen]
    exact getD_set_self _ _ _ _ (by rw [hrowlen]; exact hx)
  · intro q hq
    show ((f.cells.set p.y _).getD q.y []).getD q.x Frame.blankCell = _
    simp only [Frame.cellAt]
    by_cases hqy : q.y = p.y
    · rw [hqy, getD_set_self _ _ _ _ hylen]
      have hqx : q.x ≠ p.x := by
        rcases hq with h | h
        · exact h
        · exact absurd hqy h
      exact getD_set_of_ne _ _ _ _ _ (fun he => hqx he.symm)
    · rw [getD_set_of_ne _ _ _ _ _ (fun he => hqy he.symm)]

/-- Rust `char_simple` writes the single cell
`⟨c, black background, white foreground⟩`. -/
theorem Frame.char_simple_spec (f : Frame) (p : Point) (c : Char)
    (hwf : f.WF) (hy : p.y < f.size.height) (hx : p.x < f.size.width) :
    ∃ f', f.char_simple p c = Option.some f' ∧ f'.size = f.size ∧ f'.WF ∧
      f'.cellAt p = ⟨c, Color.black, Color.white⟩ ∧
      ∀ q : Point, (q.x ≠ p.x ∨ q.y ≠ p.y) → f'.cellAt q = f.cellAt q := by
  exact Frame.set_cell_spec f p _ hwf hy hx

/-! ## String length and container-size fold lemmas -/

theorem strLen_foldl_acc (s : List Char) (acc : Nat) :
    s.foldl (fun a c => a + c.utf8Size) acc = acc + strLen s := by
  induction s generalizing acc with
  | nil => simp [strLen]
  | cons c cs ih =>
    simp only [List.foldl, strLen]
    rw [ih, ih (0 + c.utf8Size)]
    omega

theorem strLen_cons (c : Char) (s : List Char) :
    strLen (c :: s) = c.utf8Size + strLen s := by
  show (c :: s).foldl (fun a c => a + c.utf8Size) 0 = _
  rw [List.foldl_cons, strLen_foldl_acc]
  omega

theorem one_le_utf8Size (c : Char) : 1 ≤ c.utf8Size := by
  simp only [Char.utf8Size]
  repeat' split
  all_goals omega

/-- A string has at least as many UTF-8 bytes as characters. -/
theorem length_le_strLen (s : List Char) : s.length ≤ strLen s := by
  induction s with
  | nil => simp [strLen]
  | cons c cs ih =>
    rw [strLen_cons]
    have := one_le_utf8Size c
    simp only [List.length_cons]
    omega

/-- Spec-side reading of the vertical container law: the maximum of
the widths. -/
def maxWidth (l : List Size) : Nat :=
  l.foldr (fun s acc => Nat.max s.width acc) 0

/-- Spec-side reading: the sum of the heights. -/
def sumHeight (l : List Size) : Nat :=
  (l.map Size.height).sum

/-- Spec-side reading of the horizontal container law: the sum of the
widths. -/
def sumWidth (l : List Size) : Nat :=
  (l.map Size.width).sum

/-- Spec-side reading: the maximum of the heights. -/
def maxHeight (l : List Size) : Nat :=
  l.foldr (fun s acc => Nat.max s.height acc) 0

theorem vfold_eq (l : List Size) (acc : Size) :
    l.foldl
      (fun acc s => Size.new (Nat.max acc.width s.width) (acc.height + s.height))
      acc
      = Size.new (Nat.max acc.width (maxWidth l)) (acc.height + sumHeight l) := by
  induction l generalizing acc with
  | nil => simp [maxWidth, sumHeight, Size.new]
  | cons s rest ih =>
    rw [List.foldl_cons, ih]
    simp only [Size.new, Size.mk.injEq, maxWidth, List.foldr_cons, sumHeight,
      List.map_cons, List.sum_cons]
    constructor
    · exact Nat.max_assoc _ _ _
    · omega

theorem hfold_eq (l : List Size) (acc : Size) :
    l.foldl
      (fun acc s => Size.new (acc.width + s.width) (Nat.max acc.height s.height))
      acc
      = Size.new (acc.width + sumWidth l) (Nat.max acc.height (maxHeight l)) := by
  induction l generalizing acc with
  | nil => simp [sumWidth, maxHeight, Size.new]
  | cons s rest ih =>
    rw [List.foldl_cons, ih]
    simp only [Size.new, Size.mk.injEq, maxHeight, List.foldr_cons, sumWidth,
      List.map_cons, List.sum_cons]
    constructor
    · omega
    · exact Nat.max_assoc _ _ _

theorem Node.sizes_eq (es : List Node) : Node.sizes es = es.map Node.size := by
  induction es with
  | nil => simp [Node.sizes]
  | cons e rest ih => simp [Node.sizes, ih]

theorem Node.size_verticalContainer (es : List Node) :
    (Node.verticalContainer es).size
      = Size.new (maxWidth (Node.sizes es)) (sumHeight (Node.sizes es)) := by
  show (Node.sizes es).foldl _ _ = _
  rw [vfold_eq]
  simp [Size.new]

theorem Node.size_horizontalContainer (es : List Node) :
    (Node.horizontalContainer es).size
      = Size.new (sumWidth (Node.sizes es)) (maxHeight (Node.sizes es)) := by
  show (Node.sizes es).foldl _ _ = _
  rw [hfold_eq]
  simp [Size.new]

theorem width_le_maxWidth {s : Size} {l : List Size} (h : s ∈ l) :
    s.width ≤ maxWidth l := by
  induction l with
  | nil => simp at h
  | cons a rest ih =>
    rcases List.mem_cons.mp h with heq | hmem
    · rw [heq]
      exact Nat.le_max_left _ _
    · exact Nat.le_trans (ih hmem) (Nat.le_max_right _ _)

theorem height_le_maxHeight {s : Size} {l : List Size} (h : s ∈ l) :
    s.height ≤ maxHeight l := by
  induction l with
  | nil => simp at h
  | cons a rest ih =>
    rcases List.mem_cons.mp h with heq | hmem
    · rw [heq]
      exact Nat.le_max_left _ _
    · exact Nat.le_trans (ih hmem) (Nat.le_max_right _ _)

theorem sumHeight_cons (s : Size) (l : List Size) :
    sumHeight (s :: l) = s.height + sumHeight l := by
  simp [sumHeight]

theorem sumWidth_cons (s : Size) (l : List Size) :
    sumWidth (s :: l) = s.width + sumWidth l := by
  simp [sumWidth]

/-! ## Totality of the paint loops: in-bounds painting never panics -/

theorem point_add_def (a b : Point) : a + b = ⟨a.x + b.x, a.y + b.y⟩ := rfl

theorem size_add_def (a b : Size) : a + b = ⟨a.width + b.width, a.height + b.height⟩ := rfl

theorem render_text_go_total (s : List Char) :
    ∀ (f : Frame) (p : Point) (i : Nat), f.WF → p.y < f.size.height →
      p.x + i + s.length ≤ f.size.width →
      ∃ f', NodeRenderer.render_text_go f p i s = Option.some f' ∧
        f'.size = f.size ∧ f'.WF := by
  induction s with
  | nil => exact fun f p i hwf _ _ => ⟨f, rfl, rfl, hwf⟩
  | cons c cs ih =>
    intro f p i hwf hy hx
    obtain ⟨f1, he, hs1, hwf1, -, -⟩ :=
      Frame.char_simple_spec f (p + Point.new i 0) c hwf
        (by simp [point_add_def, Point.new]; omega)
        (by simp [point_add_def, Point.new]; simp at hx; omega)
    obtain ⟨f2, he2, hs2, hwf2⟩ := ih f1 p (i + 1) hwf1
      (by rw [hs1]; exact hy)
      (by rw [hs1]; simp at hx ⊢; omega)
    exact ⟨f2, by simp [NodeRenderer.render_text_go, he, he2], by rw [hs2, hs1], hwf2⟩

theorem render_tile_row_total (cs : List Char) :
    ∀ (f : Frame) (p : Point) (i j : Nat), f.WF → p.x + i < f.size.width →
      p.y + j + cs.length ≤ f.size.height →
      ∃ f', NodeRenderer.render_tile_row f p i j cs = Option.some f' ∧
        f'.size = f.size ∧ f'.WF := by
  induction cs with
  | nil => exact fun f p i j hwf _ _ => ⟨f, rfl, rfl, hwf⟩
  | cons c cs ih =>
    intro f p i j hwf hx hy
    obtain ⟨f1, he, hs1, hwf1, -, -⟩ :=
      Frame.char_simple_spec f (p + Point.new i j) c hwf
        (by simp [point_add_def, Point.new]; simp at hy; omega)
        (by simp [point_add_def, Point.new]; omega)
    obtain ⟨f2, he2, hs2, hwf2⟩ := ih f1 p i (j + 1) hwf1
      (by rw [hs1]; exact hx)
      (by rw [hs1]; simp at hy ⊢; omega)
    exact ⟨f2, by simp [NodeRenderer.render_tile_row, he, he2], by rw [hs2, hs1], hwf2⟩

theorem render_tile_rows_total (rows : List (List Char)) :
    ∀ (f : Frame) (p : Point) (i : Nat), f.WF →
      p.x + i + rows.length ≤ f.size.width →
      (∀ row ∈ rows, p.y + row.length ≤ f.size.height) →
      ∃ f', NodeRenderer.render_tile_rows f p i rows = Option.some f' ∧
        f'.size = f.size ∧ f'.WF := by
  induction rows with
  | nil => exact fun f p i hwf _ _ => ⟨f, rfl, rfl, hwf⟩
  | cons row rest ih =>
    intro f p i hwf hx hrows
    obtain ⟨f1, he, hs1, hwf1⟩ := render_tile_row_total row f p i 0 hwf
      (by simp at hx; omega)
      (by have := hrows row (List.mem_cons_self row rest); omega)
    obtain ⟨f2, he2, hs2, hwf2⟩ := ih f1 p (i + 1) hwf1
      (by rw [hs1]; simp at hx ⊢; omega)
      (by rw [hs1]; exact fun r hr => hrows r (List.mem_cons_of_mem row hr))
    exact ⟨f2, by simp [NodeRenderer.render_tile_rows, he, he2], by rw [hs2, hs1], hwf2⟩

theorem render_tile_total (f : Frame) (p : Point) (t : Tile) (hwf : f.WF)
    (hx : p.x + TILE_SIZE ≤ f.size.width) (hy : p.y + TILE_SIZE ≤ f.size.height) :
    ∃ f', NodeRenderer.render_tile f p t = Option.some f' ∧
      f'.size = f.size ∧ f'.WF := by
  apply render_tile_rows_total
  · exact hwf
  · simpa using hx
  · intro row hrow
    have := List.eq_of_mem_replicate hrow
    rw [this]
    simpa using hy

theorem render_hrun_total (count : Nat) :
    ∀ (f : Frame) (y x0 : Nat) (c : Char), f.WF → y < f.size.height →
      x0 + count ≤ f.size.width →
      ∃ f', NodeRenderer.render_hrun f y x0 count c = Option.some f' ∧
        f'.size = f.size ∧ f'.WF := by
  induction count with
  | zero => exact fun f y x0 c hwf _ _ => ⟨f, rfl, rfl, hwf⟩
  | succ n ih =>
    intro f y x0 c hwf hy hx
    obtain ⟨f1, he, hs1, hwf1, -, -⟩ :=
      Frame.char_simple_spec f (Point.new x0 y) c hwf
        (by simp [Point.new]; omega) (by simp [Point.new]; omega)
    obtain ⟨f2, he2, hs2, hwf2⟩ := ih f1 y (x0 + 1) c hwf1
      (by rw [hs1]; exact hy) (by rw [hs1]; omega)
    exact ⟨f2, by simp [NodeRenderer.render_hrun, he, he2], by rw [hs2, hs1], hwf2⟩

theorem render_vrun2_total (count : Nat) :
    ∀ (f : Frame) (xl xr y0 : Nat) (c : Char), f.WF →
      xl < f.size.width → xr < f.size.width → y0 + count ≤ f.size.height →
      ∃ f', NodeRenderer.render_vrun2 f xl xr y0 count c = Option.some f' ∧
        f'.size = f.size ∧ f'.WF := by
  induction count with
  | zero => exact fun f xl xr y0 c hwf _ _ _ => ⟨f, rfl, rfl, hwf⟩
  | succ n ih =>
    intro f xl xr y0 c hwf hxl hxr hy
    obtain ⟨f1, he1, hs1, hwf1, -, -⟩ :=
      Frame.char_simple_spec f (Point.new xl y0) c hwf
        (by simp [Point.new]; omega) (by simp [Point.new]; omega)
    obtain ⟨f2, he2, hs2, hwf2, -, -⟩ :=
      Frame.char_simple_spec f1 (Point.new xr y0) c hwf1
        (by simp [Point.new]; rw [hs1]; omega) (by simp [Point.new]; rw [hs1]; omega)
    obtain ⟨f3, he3, hs3, hwf3⟩ := ih f2 xl xr (y0 + 1) c hwf2
      (by rw [hs2, hs1]; omega) (by rw [hs2, hs1]; omega) (by rw [hs2, hs1]; omega)
    exact ⟨f3, by simp [NodeRenderer.render_vrun2, he1, he2, he3],
      by rw [hs3, hs2, hs1], hwf3⟩

theorem render_border_total (f : Frame) (p : Point) (inner : Size) (hwf : f.WF)
    (hx : p.x + inner.width + 2 ≤ f.size.width)
    (hy : p.y + inner.height + 2 ≤ f.size.height) :
    ∃ f', NodeRenderer.render_border f p inner = Option.some f' ∧
      f'.size = f.size ∧ f'.WF := by
  obtain ⟨f1, he1, hs1, hwf1, -, -⟩ :=
    Frame.char_simple_spec f (Point.new p.x p.y) CharDrawing.cornerTopLeft.toChar
      hwf (by simp [Point.new]; omega) (by simp [Point.new]; omega)
  obtain ⟨f2, he2, hs2, hwf2⟩ :=
    render_hrun_total inner.width f1 p.y (p.x + 1) CharDrawing.horizontal.toChar
      hwf1 (by rw [hs1]; omega) (by rw [hs1]; omega)
  obtain ⟨f3, he3, hs3, hwf3, -, -⟩ :=
    Frame.char_simple_spec f2 (Point.new (p.x + inner.width + 1) p.y)
      CharDrawing.cornerTopRight.toChar hwf2
      (by simp [Point.new]; rw [hs2, hs1]; omega)
      (by simp [Point.new]; rw [hs2, hs1]; omega)
  obtain ⟨f4, he4, hs4, hwf4⟩ :=
    render_vrun2_total inner.height f3 p.x (p.x + inner.width + 1) (p.y + 1)
      CharDrawing.vertical.toChar hwf3
      (by rw [hs3, hs2, hs1]; omega) (by rw [hs3, hs2, hs1]; omega)
      (by rw [hs3, hs2, hs1]; omega)
  obtain ⟨f5, he5, hs5, hwf5, -, -⟩ :=
    Frame.char_simple_spec f4 (Point.new p.x (p.y + inner.height + 1))
      CharDrawing.cornerBottomLeft.toChar hwf4
      (by simp [Point.new]; rw [hs4, hs3, hs2, hs1]; omega)
      (by simp [Point.new]; rw [hs4, hs3, hs2, hs1]; omega)
  obtain ⟨f6, he6, hs6, hwf6⟩ :=
    render_hrun_total inner.width f5 (p.y + inner.height + 1) (p.x + 1)
      CharDrawing.horizontal.toChar hwf5
      (by rw [hs5, hs4, hs3, hs2, hs1]; omega)
      (by rw [hs5, hs4, hs3, hs2, hs1]; omega)
  obtain ⟨f7, he7, hs7, hwf7, -, -⟩ :=
    Frame.char_simple_spec f6
      (Point.new (p.x + inner.width + 1) (p.y + inner.height + 1))
      CharDrawing.cornerBottomRight.toChar hwf6
      (by simp [Point.new]; rw [hs6, hs5, hs4, hs3, hs2, hs1]; omega)
      (by simp [Point.new]; rw [hs6, hs5, hs4, hs3, hs2, hs1]; omega)
  refine ⟨f7, ?_, by rw [hs7, hs6, hs5, hs4, hs3, hs2, hs1], hwf7⟩
  unfold NodeRenderer.render_border
  simp [he1, he2, he3, he4, he5, he6, he7]

/-! ## Size/paint consistency: rendering a node inside its computed
bounding box never writes out of bounds -/

mutual

theorem Node.render_total : ∀ (n : Node) (f : Frame) (p : Point),
    f.WF → p.x + n.size.width ≤ f.size.width →
    p.y + n.size.height ≤ f.size.height →
    ∃ f', n.render f p = Option.some f' ∧ f'.size = f.size ∧ f'.WF
  | .none, f, _, hwf, _, _ => ⟨f, rfl, rfl, hwf⟩
  | .char c, f, p, hwf, hx, hy => by
      simp only [Node.size, Size.new] at hx hy
      obtain ⟨f1, he, hs, hwf1, -, -⟩ :=
        Frame.char_simple_spec f p c hwf (by omega) (by omega)
      exact ⟨f1, by simp [Node.render, NodeRenderer.render_char, he], hs, hwf1⟩
  | .text s, f, p, hwf, hx, hy => by
      simp only [Node.size, Size.new] at hx hy
      obtain ⟨f1, he, hs, hwf1⟩ := render_text_go_total s f p 0 hwf (by omega)
        (by have := length_le_strLen s; omega)
      exact ⟨f1, by simp [Node.render, NodeRenderer.render_text, he], hs, hwf1⟩
  | .tile t, f, p, hwf, hx, hy => by
      simp only [Node.size, Size.new] at hx hy
      obtain ⟨f1, he, hs, hwf1⟩ := render_tile_total f p t hwf (by omega) (by omega)
      exact ⟨f1, by simp [Node.render, he], hs, hwf1⟩
  | .verticalContainer es, f, p, hwf, hx, hy => by
      rw [Node.size_verticalContainer] at hx hy
      simp only [Size.new] at hx hy
      obtain ⟨f1, he, hs, hwf1⟩ := Node.vertical_total es f p.x p.y hwf
        (fun e hmem => by
          have hin : e.size ∈ Node.sizes es := by
            rw [Node.sizes_eq]
            exact List.mem_map_of_mem Node.size hmem
          have := width_le_maxWidth hin
          omega)
        hy
      exact ⟨f1, by simp [Node.render, he], hs, hwf1⟩
  | .horizontalContainer es, f, p, hwf, hx, hy => by
      rw [Node.size_horizontalContainer] at hx hy
      simp only [Size.new] at hx hy
      obtain ⟨f1, he, hs, hwf1⟩ := Node.horizontal_total es f p.x p.y hwf hx
        (fun e hmem => by
          have hin : e.size ∈ Node.sizes es := by
            rw [Node.sizes_eq]
            exact List.mem_map_of_mem Node.size hmem
          have := height_le_maxHeight hin
          omega)
      exact ⟨f1, by simp [Node.render, he], hs, hwf1⟩
  | .framed e, f, p, hwf, hx, hy => by
      have hfr : (Node.framed e).size = Size.new (e.size.width + 2) (e.size.height + 2) := by
        simp [Node.size, size_add_def, Size.new]
      rw [hfr] at hx hy
      simp only [Size.new] at hx hy
      obtain ⟨f1, he1, hs1, hwf1⟩ := render_border_total f p e.size hwf
        (by omega) (by omega)
      obtain ⟨f2, he2, hs2, hwf2⟩ := Node.render_total e f1 (p + Point.new 1 1)
        hwf1
        (by simp [point_add_def, Point.new]; rw [hs1]; omega)
        (by simp [point_add_def, Point.new]; rw [hs1]; omega)
      exact ⟨f2, by simp [Node.render, he1, he2], by rw [hs2, hs1], hwf2⟩

theorem Node.vertical_total : ∀ (es : List Node) (f : Frame) (x y : Nat),
    f.WF → (∀ e ∈ es, x + e.size.width ≤ f.size.width) →
    y + sumHeight (Node.sizes es) ≤ f.size.height →
    ∃ f', Node.vertical_container es f x y = Option.some f' ∧
      f'.size = f.size ∧ f'.WF
  | [], f, _, _, hwf, _, _ => ⟨f, rfl, rfl, hwf⟩
  | e :: es, f, x, y, hwf, hxs, hy => by
      have hsum : sumHeight (Node.sizes (e :: es))
          = e.size.height + sumHeight (Node.sizes es) := by
        show sumHeight (Node.size e :: Node.sizes es) = _
        exact sumHeight_cons _ _
      rw [hsum] at hy
      obtain ⟨f1, he1, hs1, hwf1⟩ := Node.render_total e f (Point.new x y) hwf
        (by simpa [Point.new] using hxs e (List.mem_cons_self e es))
        (by simp [Point.new]; omega)
      obtain ⟨f2, he2, hs2, hwf2⟩ := Node.vertical_total es f1 x
        (y + e.size.height) hwf1
        (fun e' hmem => by rw [hs1]; exact hxs e' (List.mem_cons_of_mem e hmem))
        (by rw [hs1]; omega)
      exact ⟨f2, by simp [Node.vertical_container, he1, he2],
        by rw [hs2, hs1], hwf2⟩

theorem Node.horizontal_total : ∀ (es : List Node) (f : Frame) (x y : Nat),
    f.WF → x + sumWidth (Node.sizes es) ≤ f.size.width →
    (∀ e ∈ es, y + e.size.height ≤ f.size.height) →
    ∃ f', Node.horizontal_container es f x y = Option.some f' ∧
      f'.size = f.size ∧ f'.WF
  | [], f, _, _, hwf, _, _ => ⟨f, rfl, rfl, hwf⟩
  | e :: es, f, x, y, hwf, hx, hys => by
      have hsum : sumWidth (Node.sizes (e :: es))
          = e.size.width + sumWidth (Node.sizes es) := by
        show sumWidth (Node.size e :: Node.sizes es) = _
        exact sumWidth_cons _ _
      rw [hsum] at hx
      obtain ⟨f1, he1, hs1, hwf1⟩ := Node.render_total e f (Point.new x y) hwf
        (by simp [Point.new]; omega)
        (by simpa [Point.new] using hys e (List.mem_cons_self e es))
      obtain ⟨f2, he2, hs2, hwf2⟩ := Node.horizontal_total es f1
        (x + e.size.width) y hwf1
        (by rw [hs1]; omega)
        (fun e' hmem => by rw [hs1]; exact hys e' (List.mem_cons_of_mem e hmem))
      exact ⟨f2, by simp [Node.horizontal_container, he1, he2],
        by rw [hs2, hs1], hwf2⟩

end

/-- C1: for every layout `Node` tree, rendering it at the origin
`(0,0)` into a `Frame` created with exactly the tree's computed
`size()` (as the `From<Node> for Frame` conversion does) only ever
writes in-bounds cells: the out-of-bounds assertion in
`Frame::set_cell` — modelled as the `Option.none` outcome — is
unreachable, so the render pass always produces a frame (of the
node's size). -/
theorem render_sized_frame_in_bounds (n : Node) :
    ∃ f, Frame.from_node n = Option.some f ∧ f.size = n.size := by
  obtain ⟨f', he, hs, -⟩ := Node.render_total n (Frame.new n.size) Point.zero
    (Frame.new_WF n.size)
    (by simp [Frame.new, Point.zero, Point.new])
    (by simp [Frame.new, Point.zero, Point.new])
  exact ⟨f', he, hs⟩

/-- C2: for every list of child nodes, `VerticalContainer(children)`
has width the maximum of the children's widths and height the sum of
the children's heights; `HorizontalContainer` is the dual (width =
sum of widths, height = max of heights); for the empty child list
both containers yield size `(0,0)`. -/
theorem container_size_laws (es : List Node) :
    (Node.verticalContainer es).size
      = Size.new ((es.map (fun e => e.size.width)).foldr Nat.max 0)
          ((es.map (fun e => e.size.height)).sum)
    ∧ (Node.horizontalContainer es).size
      = Size.new ((es.map (fun e => e.size.width)).sum)
          ((es.map (fun e => e.size.height)).foldr Nat.max 0)
    ∧ (Node.verticalContainer ([] : List Node)).size = Size.new 0 0
    ∧ (Node.horizontalContainer ([] : List Node)).size = Size.new 0 0 := by
  refine ⟨?_, ?_, ?_, ?_⟩
  · rw [Node.size_verticalContainer]
    simp [maxWidth, sumHeight, Node.sizes_eq, List.foldr_map, List.map_map,
      Function.comp_def]
  · rw [Node.size_horizontalContainer]
    simp [maxHeight, sumWidth, Node.sizes_eq, List.foldr_map, List.map_map,
      Function.comp_def]
  · rw [Node.size_verticalContainer]
    simp [maxWidth, sumHeight, Node.sizes]
  · rw [Node.size_horizontalContainer]
    simp [maxHeight, sumWidth, Node.sizes]

/-! ## Exact paint characterisation of `Text` and `Tile` rendering -/

theorem ascii_strLen (s : List Char) (h : ∀ c ∈ s, c.utf8Size = 1) :
    strLen s = s.length := by
  induction s with
  | nil => simp [strLen]
  | cons c cs ih =>
    rw [strLen_cons, h c (List.mem_cons_self c cs),
      ih (fun c' hc' => h c' (List.mem_cons_of_mem c hc'))]
    simp only [List.length_cons]
    omega

/-- The byte length of a string equals its character count exactly
when every character is a single UTF-8 byte: since every character
occupies at least one byte, one multi-byte character already forces
the byte length above the character count. -/
theorem strLen_eq_length_iff (s : List Char) :
    strLen s = s.length ↔ ∀ c ∈ s, c.utf8Size = 1 := by
  constructor
  · induction s with
    | nil => intro _ c hc; simp at hc
    | cons c cs ih =>
      intro h c' hc'
      rw [strLen_cons] at h
      simp only [List.length_cons] at h
      have h1 := one_le_utf8Size c
      have h2 := length_le_strLen cs
      have hc : c.utf8Size = 1 := by omega
      have hcs : strLen cs = cs.length := by omega
      rcases List.mem_cons.mp hc' with heq | hmem
      · rw [heq]
        exact hc
      · exact ih hcs c' hmem
  · exact ascii_strLen s

theorem render_text_go_paint (s : List Char) :
    ∀ (f : Frame) (p : Point) (i : Nat), f.WF → p.y < f.size.height →
      p.x + i + s.length ≤ f.size.width →
      ∃ f', NodeRenderer.render_text_go f p i s = Option.some f' ∧
        f'.size = f.size ∧ f'.WF ∧
        (∀ k, k < s.length →
          f'.cellAt ⟨p.x + i + k, p.y⟩ = ⟨s.getD k ' ', Color.black, Color.white⟩) ∧
        (∀ q : Point, (q.y ≠ p.y ∨ q.x < p.x + i ∨ p.x + i + s.length ≤ q.x) →
          f'.cellAt q = f.cellAt q) := by
  induction s with
  | nil =>
    intro f p i hwf _ _
    exact ⟨f, rfl, rfl, hwf, fun k hk => by simp at hk, fun q _ => rfl⟩
  | cons c cs ih =>
    intro f p i hwf hy hx
    obtain ⟨f1, he1, hs1, hwf1, hset1, hkeep1⟩ :=
      Frame.char_simple_spec f (p + Point.new i 0) c hwf
        (by simp [point_add_def, Point.new]; omega)
        (by simp [point_add_def, Point.new]; simp at hx; omega)
    obtain ⟨f2, he2, hs2, hwf2, hset2, hkeep2⟩ := ih f1 p (i + 1) hwf1
      (by rw [hs1]; exact hy) (by rw [hs1]; simp at hx ⊢; omega)
    refine ⟨f2, by simp [NodeRenderer.render_text_go, he1, he2],
      by rw [hs2, hs1], hwf2, ?_, ?_⟩
    · intro k hk
      cases k with
      | zero =>
        have hfix : f2.cellAt ⟨p.x + i + 0, p.y⟩ = f1.cellAt ⟨p.x + i + 0, p.y⟩ :=
          hkeep2 ⟨p.x + i + 0, p.y⟩
            (by right; left; show p.x + i + 0 < p.x + (i + 1); omega)
        rw [hfix]
        have : (⟨p.x + i + 0, p.y⟩ : Point) = p + Point.new i 0 := by
          simp [point_add_def, Point.new]
        rw [this, hset1]
        simp [List.getD]
      | succ k' =>
        have := hset2 k' (by simpa using hk)
        have harith : p.x + (i + 1) + k' = p.x + i + (k' + 1) := by omega
        rw [harith] at this
        rw [this]
        simp [List.getD]
    · intro q hq
      have hq2 : q.y ≠ p.y ∨ q.x < p.x + (i + 1) ∨ p.x + (i + 1) + cs.length ≤ q.x := by
        rcases hq with h | h | h
        · exact Or.inl h
        · exact Or.inr (Or.inl (by omega))
        · exact Or.inr (Or.inr (by simp at h; omega))
      rw [hkeep2 q hq2]
      apply hkeep1
      rcases hq with h | h | h
      · right
        simpa [point_add_def, Point.new] using h
      · left
        simp [point_add_def, Point.new]
        omega
      · left
        simp [point_add_def, Point.new]
        simp at h
        omega

/-- C8 (amended): `Text(s).size()` is `(s.len(), 1)` where `s.len()`
is Rust's byte length (`strLen`); rendering paints the characters of
`s` left-to-right, one column per character, on that single row —
exactly `s.length` (character count) cells — and leaves every other
cell untouched; the computed width coincides with the number of cells
painted exactly for strings of single-byte (ASCII) characters. -/
theorem text_size_and_paint (s : List Char) (f : Frame) (p : Point)
    (hwf : f.WF) (hy : p.y < f.size.height)
    (hx : p.x + strLen s ≤ f.size.width) :
    (Node.text s).size = Size.new (strLen s) 1
    ∧ (strLen s = s.length ↔ ∀ c ∈ s, c.utf8Size = 1)
    ∧ ∃ f', (Node.text s).render f p = Option.some f' ∧ f'.size = f.size ∧
        (∀ k, k < s.length →
          f'.cellAt ⟨p.x + k, p.y⟩ = ⟨s.getD k ' ', Color.black, Color.white⟩)
        ∧ (∀ q : Point, (q.y ≠ p.y ∨ q.x < p.x ∨ p.x + s.length ≤ q.x) →
            f'.cellAt q = f.cellAt q) := by
  refine ⟨by simp [Node.size], strLen_eq_length_iff s, ?_⟩
  obtain ⟨f', he, hs, -, hset, hkeep⟩ := render_text_go_paint s f p 0 hwf hy
    (by have := length_le_strLen s; omega)
  refine ⟨f', by simp [Node.render, NodeRenderer.render_text, he], hs, ?_, ?_⟩
  · intro k hk
    have := hset k hk
    simpa using this
  · intro q hq
    apply hkeep
    rcases hq with h | h | h
    · exact Or.inl h
    · exact Or.inr (Or.inl (by omega))
    · exact Or.inr (Or.inr (by omega))

/-- C8 counterexample: for the one-character string `"é"` (a 2-byte
UTF-8 character), the computed width is 2 but rendering into the
width-2 frame paints exactly one cell — the second cell stays blank —
so the computed width does not equal the number of character cells
painted. -/
theorem text_width_ne_cells_painted :
    (Node.text ['é']).size.width = 2
    ∧ Frame.from_node (Node.text ['é'])
        = Option.some
            ⟨Size.new 2 1, [[⟨'é', Color.black, Color.white⟩, Frame.blankCell]]⟩
    ∧ ¬ ((Node.text ['é']).size.width = (['é'] : List Char).length) := by
  refine ⟨by decide, by decide, by decide⟩

/-- The placeholder cell a tile is filled with: the `.` glyph on the
default colors. -/
def dotCell : Cell := ⟨'.', Color.black, Color.white⟩

theorem render_tile_row_paint (cs : List Char) :
    ∀ (f : Frame) (p : Point) (i j : Nat), f.WF → p.x + i < f.size.width →
      p.y + j + cs.length ≤ f.size.height → (∀ c ∈ cs, c = '.') →
      ∃ f', NodeRenderer.render_tile_row f p i j cs = Option.some f' ∧
        f'.size = f.size ∧ f'.WF ∧
        (∀ k, k < cs.length → f'.cellAt ⟨p.x + i, p.y + j + k⟩ = dotCell) ∧
        (∀ q : Point, (q.x ≠ p.x + i ∨ q.y < p.y + j ∨ p.y + j + cs.length ≤ q.y) →
          f'.cellAt q = f.cellAt q) := by
  induction cs with
  | nil =>
    intro f p i j hwf _ _ _
    exact ⟨f, rfl, rfl, hwf, fun k hk => by simp at hk, fun q _ => rfl⟩
  | cons c cs ih =>
    intro f p i j hwf hx hy hdot
    obtain ⟨f1, he1, hs1, hwf1, hset1, hkeep1⟩ :=
      Frame.char_simple_spec f (p + Point.new i j) c hwf
        (by simp [point_add_def, Point.new]; simp at hy; omega)
        (by simp [point_add_def, Point.new]; omega)
    obtain ⟨f2, he2, hs2, hwf2, hset2, hkeep2⟩ := ih f1 p i (j + 1) hwf1
      (by rw [hs1]; exact hx) (by rw [hs1]; simp at hy ⊢; omega)
      (fun c' hc' => hdot c' (List.mem_cons_of_mem c hc'))
    refine ⟨f2, by simp [NodeRenderer.render_tile_row, he1, he2],
      by rw [hs2, hs1], hwf2, ?_, ?_⟩
    · intro k hk
      cases k with
      | zero =>
        have hfix : f2.cellAt ⟨p.x + i, p.y + j + 0⟩ = f1.cellAt ⟨p.x + i, p.y + j + 0⟩ :=
          hkeep2 ⟨p.x + i, p.y + j + 0⟩
            (by right; left; show p.y + j + 0 < p.y + (j + 1); omega)
        rw [hfix]
        have : (⟨p.x + i, p.y + j + 0⟩ : Point) = p + Point.new i j := by
          simp [point_add_def, Point.new]
        rw [this, hset1, hdot c (List.mem_cons_self c cs)]
        rfl
      | succ k' =>
        have := hset2 k' (by simpa using hk)
        have harith : p.y + (j + 1) + k' = p.y + j + (k' + 1) := by omega
        rw [harith] at this
        exact this
    · intro q hq
      have hq2 : q.x ≠ p.x + i ∨ q.y < p.y + (j + 1) ∨ p.y + (j + 1) + cs.length ≤ q.y := by
        rcases hq with h | h | h
        · exact Or.inl h
        · exact Or.inr (Or.inl (by omega))
        · exact Or.inr (Or.inr (by simp at h; omega))
      rw [hkeep2 q hq2]
      apply hkeep1
      rcases hq with h | h | h
      · left
        simpa [point_add_def, Point.new] using h
      · right
        simp [point_add_def, Point.new]
        omega
      · right
        simp [point_add_def, Point.new]
        simp at h
        omega

theorem render_tile_rows_paint (rows : List (List Char)) (L : Nat) :
    ∀ (f : Frame) (p : Point) (i : Nat), f.WF →
      p.x + i + rows.length ≤ f.size.width → p.y + L ≤ f.size.height →
      (∀ row ∈ rows, ∀ c ∈ row, c = '.') →
      (∀ row ∈ rows, row.length = L) →
      ∃ f', NodeRenderer.render_tile_rows f p i rows = Option.some f' ∧
        f'.size = f.size ∧ f'.WF ∧
        (∀ a b, a < rows.length → b < L →
          f'.cellAt ⟨p.x + i + a, p.y + b⟩ = dotCell) ∧
        (∀ q : Point,
          (q.x < p.x + i ∨ p.x + i + rows.length ≤ q.x ∨ q.y < p.y ∨ p.y + L ≤ q.y) →
          f'.cellAt q = f.cellAt q) := by
  induction rows with
  | nil =>
    intro f p i hwf _ _ _ _
    exact ⟨f, rfl, rfl, hwf, fun a b ha _ => by simp at ha, fun q _ => rfl⟩
  | cons row rest ih =>
    intro f p i hwf hx hyL hdots hlens
    have hrowlen : row.length = L := hlens row (List.mem_cons_self row rest)
    obtain ⟨f1, he1, hs1, hwf1, hset1, hkeep1⟩ := render_tile_row_paint row f p i 0
      hwf (by simp at hx; omega) (by rw [hrowlen]; omega)
      (hdots row (List.mem_cons_self row rest))
    obtain ⟨f2, he2, hs2, hwf2, hset2, hkeep2⟩ := ih f1 p (i + 1) hwf1
      (by rw [hs1]; simp at hx ⊢; omega) (by rw [hs1]; exact hyL)
      (fun r hr => hdots r (List.mem_cons_of_mem row hr))
      (fun r hr => hlens r (List.mem_cons_of_mem row hr))
    refine ⟨f2, by simp [NodeRenderer.render_tile_rows, he1, he2],
      by rw [hs2, hs1], hwf2, ?_, ?_⟩
    · intro a b ha hb
      cases a with
      | zero =>
        have hfix : f2.cellAt ⟨p.x + i + 0, p.y + b⟩ = f1.cellAt ⟨p.x + i + 0, p.y + b⟩ :=
          hkeep2 ⟨p.x + i + 0, p.y + b⟩
            (by left; show p.x + i + 0 < p.x + (i + 1); omega)
        rw [hfix]
        have := hset1 b (by rw [hrowlen]; exact hb)
        simpa using this
      | succ a' =>
        have := hset2 a' b (by simpa using ha) hb
        have harith : p.x + (i + 1) + a' = p.x + i + (a' + 1) := by omega
        rw [harith] at this
        exact this
    · intro q hq
      have hq2 : q.x < p.x + (i + 1) ∨ p.x + (i + 1) + rest.length ≤ q.x
          ∨ q.y < p.y ∨ p.y + L ≤ q.y := by
        rcases hq with h | h | h | h
        · exact Or.inl (by omega)
        · exact Or.inr (Or.inl (by simp at h; omega))
        · exact Or.inr (Or.inr (Or.inl h))
        · exact Or.inr (Or.inr (Or.inr h))
      rw [hkeep2 q hq2]
      apply hkeep1
      rcases hq with h | h | h | h
      · exact Or.inl (by omega)
      · exact Or.inl (by simp at h; omega)
      · exact Or.inr (Or.inl (by omega))
      · exact Or.inr (Or.inr (by rw [hrowlen]; omega))

/-- C9: `Node::Tile(t).size()` is the fixed constant square
`(TILE_SIZE, TILE_SIZE) = (5,5)` regardless of the tile's content,
and rendering it at a point paints exactly that `5×5` square of
cells — every cell of the square receives the same filler glyph `.`
and every cell outside it is untouched. -/
theorem tile_size_and_paint (t : Tile) (f : Frame) (p : Point) (hwf : f.WF)
    (hx : p.x + TILE_SIZE ≤ f.size.width) (hy : p.y + TILE_SIZE ≤ f.size.height) :
    (Node.tile t).size = Size.new TILE_SIZE TILE_SIZE
    ∧ TILE_SIZE = 5
    ∧ ∃ f', (Node.tile t).render f p = Option.some f' ∧ f'.size = f.size ∧
        (∀ a b, a < TILE_SIZE → b < TILE_SIZE →
          f'.cellAt ⟨p.x + a, p.y + b⟩ = ⟨'.', Color.black, Color.white⟩)
        ∧ (∀ q : Point,
            (q.x < p.x ∨ p.x + TILE_SIZE ≤ q.x ∨ q.y < p.y ∨ p.y + TILE_SIZE ≤ q.y) →
            f'.cellAt q = f.cellAt q) := by
  refine ⟨by simp [Node.size], rfl, ?_⟩
  obtain ⟨f', he, hs, -, hset, hkeep⟩ := render_tile_rows_paint
    (List.replicate TILE_SIZE (List.replicate TILE_SIZE '.')) TILE_SIZE f p 0 hwf
    (by simpa using hx) hy
    (fun row hrow c hc => by
      have hr := List.eq_of_mem_replicate hrow
      rw [hr] at hc
      exact List.eq_of_mem_replicate hc)
    (fun row hrow => by
      have hr := List.eq_of_mem_replicate hrow
      rw [hr]
      simp)
  refine ⟨f', by simp [Node.render, NodeRenderer.render_tile, he], hs, ?_, hkeep⟩
  intro a b ha hb
  have := hset a b (by simpa using ha) hb
  simpa [dotCell] using this

/-! ## Actions and input events
(`carcasonne-core/src/action.rs`, `input_handler.rs`) -/

/-- Rust `Action` — high-level user intents (`action.rs`). -/
inductive Action where
  | startGame
  | stopGame
  | bottom
  | top
  | left
  | right
  | validate
  | quit
  | none
deriving DecidableEq

/-- Rust `InputEvent` — abstract input events (`input_handler.rs`). -/
inductive InputEvent where
  | up
  | down
  | left
  | right
  | enter
  | quit
deriving DecidableEq

/-! ## The game context (`carcasonne-core/src/context.rs`) -/

/-- Rust `GameContext` — owns the remaining tile pool. -/
structure GameContext where
  available_tiles : List Tile
deriving DecidableEq

/-- Rust `GameContext::select_random_tile`: shuffle the pool in place, then
`Vec::pop` the last element (`None` on the empty pool, which stays
empty).  The `rand`-crate shuffle is modelled by an explicit `shuffle`
function parameter; proofs that need it assume `shuffle` permutes its
argument, which any shuffle does. -/
def GameContext.select_random_tile (shuffle : List Tile → List Tile)
    (ctx : GameContext) : Option Tile × GameContext :=
  ((shuffle ctx.available_tiles).getLast?,
    ⟨(shuffle ctx.available_tiles).dropLast⟩)

/-! ## The playing-phase sub-state machine
(`carcasonne-core/src/state/game_state/playing_state.rs` and its
`select_tile_state.rs`, `place_tile_state.rs`) -/

/-- The concrete implementors of the `PlayingState` trait:
`SelectTileState` (no fields) and `PlaceTileState` (holds the drawn
tile). -/
inductive PlayingState where
  | selectTileState
  | placeTileState (tile : Tile)
deriving DecidableEq

/-- Rust `PlayingStateResult` (`playing_state.rs`): the nested machine's
step outcome — exactly `Continue(next)` or `ExitToStop`, no skip. -/
inductive PlayingStateResult where
  | Continue (next : PlayingState)
  | ExitToStop
deriving DecidableEq

/-- Rust `SelectTileState::update_game` (`select_tile_state.rs`): draw a
random tile; `Some` continues into `PlaceTileState(tile)`, `None`
exits to stop.  The `&mut GameContext` is modelled by returning the
updated context. -/
def SelectTileState.update_game (shuffle : List Tile → List Tile)
    (_action : Action) (context : GameContext) :
    PlayingStateResult × GameContext :=
  match context.select_random_tile shuffle with
  | (Option.some tile, ctx') =>
      (PlayingStateResult.Continue (PlayingState.placeTileState tile), ctx')
  | (Option.none, ctx') => (PlayingStateResult.ExitToStop, ctx')

/-- Rust `PlaceTileState::update_game` (`place_tile_state.rs`): every
action continues back into `SelectTileState`; the context is not
touched. -/
def PlaceTileState.update_game (_tile : Tile) (_action : Action)
    (context : GameContext) : PlayingStateResult × GameContext :=
  (PlayingStateResult.Continue PlayingState.selectTileState, context)

/-- Dynamic dispatch of `PlayingState::update_game` over the two
implementors. -/
def PlayingState.update_game (shuffle : List Tile → List Tile) :
    PlayingState → Action → GameContext → PlayingStateResult × GameContext
  | PlayingState.selectTileState, a, ctx =>
      SelectTileState.update_game shuffle a ctx
  | PlayingState.placeTileState t, a, ctx =>
      PlaceTileState.update_game t a ctx

/-- Dispatch of `PlayingState::draw`: `SelectTileState` draws
`Node::None`, `PlaceTileState` draws its held tile. -/
def PlayingState.draw : PlayingState → Node
  | PlayingState.selectTileState => Node.none
  | PlayingState.placeTileState t => Node.tile t

/-- Dispatch of `PlayingState::handle_input`: `SelectTileState` maps
everything to `Action::None`; `PlaceTileState` maps `Enter` to
`Validate` and everything else to `Action::None`. -/
def PlayingState.handle_input : PlayingState → InputEvent → Action
  | PlayingState.selectTileState, _ => Action.none
  | PlayingState.placeTileState _, InputEvent.enter => Action.validate
  | PlayingState.placeTileState _, _ => Action.none

/-- Dispatch of `PlayingState::need_input`: `SelectTileState` needs no
input (`false`), `PlaceTileState` uses the trait default (`true`). -/
def PlayingState.need_input : PlayingState → Bool
  | PlayingState.selectTileState => false
  | PlayingState.placeTileState _ => true

/-- Rust `GameTiles` (`carcasonne-core/src/model/game.rs`).  Modelled from
the spec: `model/game.rs` is not among the included sources; the spec
describes it as the multiset of tile descriptors produced by the
tile-set provider, and its single `available_tiles` field is fixed by
`GameBuilder::build` (`builder/game_builder.rs`) and
`PlayingPhase::new` (`playing_state.rs`). -/
structure GameTiles where
  available_tiles : List Tile
deriving DecidableEq

/-! ## The top-level presentation state machine
(`menu_state.rs`, `playing_state.rs`, `stop_state.rs`) -/

/-- The three top-level presentation states.  `PlayingPhase` owns the
current nested sub-state and the game context
(`playing_state.rs`). -/
inductive GState where
  | menu
  | playing (current_state : PlayingState) (context : GameContext)
  | stop
deriving DecidableEq

/-- Rust `StateResult`.  Modelled from the spec: the `StateResult` enum of
`carcasonne-core/src/state` is declared in a file not among the
included sources; its three variants `Continue(next state)`, `Skip`
and `ExitToStop` are fixed by §4.5 of the spec and by every use site
(`menu_state.rs`, `playing_state.rs`, `stop_state.rs` and the match
in `carcasonne-app/src/game.rs`). -/
inductive StateResult where
  | Continue (next : GState)
  | Skip
  | ExitToStop
deriving DecidableEq

/-- Rust `MenuState::update` (`menu_state.rs`): `StartGame` continues into
a fresh `PlayingPhase` holding `SelectTileState` and a context seeded
by the tile-set provider (`GameTilesFactory::build_base_game()`,
abstracted as the `deck` parameter — the factory lives outside the
specified core); every other action is `Skip`.  `&mut self` is
modelled by also returning the (fieldless, hence unchanged) self. -/
def MenuState.update (deck : GameTiles) (action : Action) :
    StateResult × GState :=
  match action with
  | Action.startGame =>
      (StateResult.Continue
        (GState.playing PlayingState.selectTileState ⟨deck.available_tiles⟩),
        GState.menu)
  | _ => (StateResult.Skip, GState.menu)

/-- Rust `PlayingPhase::update` (`playing_state.rs`): drive one step of the
nested machine; a nested `Continue(new_state)` installs `new_state`
as `self.current_state` and yields the outer `Skip`; a nested
`ExitToStop` yields an outer `Continue(StopState)`.  The second
component is the mutated `self`. -/
def PlayingPhase.update (shuffle : List Tile → List Tile)
    (current_state : PlayingState) (context : GameContext)
    (action : Action) : StateResult × GState :=
  match PlayingState.update_game shuffle current_state action context with
  | (PlayingStateResult.Continue new_state, ctx') =>
      (StateResult.Skip, GState.playing new_state ctx')
  | (PlayingStateResult.ExitToStop, ctx') =>
      (StateResult.Continue GState.stop, GState.playing current_state ctx')

/-- Rust `StopState::update` (`stop_state.rs`): every action re-signals
`ExitToStop`. -/
def StopState.update (_action : Action) : StateResult × GState :=
  (StateResult.ExitToStop, GState.stop)

/-- Dispatch of the `State` trait's `update` over the three top-level
states. -/
def GState.update (shuffle : List Tile → List Tile) (deck : GameTiles) :
    GState → Action → StateResult × GState
  | GState.menu, a => MenuState.update deck a
  | GState.playing sub ctx, a => PlayingPhase.update shuffle sub ctx a
  | GState.stop, a => StopState.update a

/-- Dispatch of `State::need_input`: Menu needs input, `PlayingPhase`
delegates to its sub-state, Stop does not. -/
def GState.need_input : GState → Bool
  | GState.menu => true
  | GState.playing sub _ => sub.need_input
  | GState.stop => false

/-- Rust `MenuState::handle_input` (`menu_state.rs`). -/
def MenuState.handle_input : InputEvent → Action
  | InputEvent.quit => Action.quit
  | InputEvent.enter => Action.startGame
  | _ => Action.none

/-- Dispatch of `State::handle_input`: `PlayingPhase` delegates to its
sub-state; `StopState` maps everything to `Action::None`. -/
def GState.handle_input : GState → InputEvent → Action
  | GState.menu, ev => MenuState.handle_input ev
  | GState.playing sub _, ev => sub.handle_input ev
  | GState.stop, _ => Action.none

/-! ## The driver loop (`carcasonne-app/src/game.rs`, `Game::run`) -/

/-- The action computed at the top of a loop iteration: if the state
needs input, block on the input source (modelled by a script of
events; `Option.none` means the read would block forever) and
translate through the state's `handle_input`; otherwise
`Action::None` without consulting input. -/
def Game.actionOf (st : GState) (events : List InputEvent) : Option Action :=
  if st.need_input then (events.head?).map st.handle_input
  else Option.some Action.none

/-- Outcome of one iteration of the `Game::run` loop. -/
inductive StepOutcome where
  /-- The loop breaks (`Action::Quit` or `ExitToStop`). -/
  | halt (st : GState)
  /-- The loop continues with this installed state. -/
  | next (st : GState)
  /-- The blocking input read never returns. -/
  | blocked
deriving DecidableEq

/-- One iteration of `Game::run`: compute the action; `Quit` breaks
the loop before `update` is called and before any transition;
otherwise take the state, call `update`, and install the result
(`Continue s` installs `s`, `Skip` re-installs the updated current
state, `ExitToStop` breaks).  Also returns the remaining input
script. -/
def Game.loopStep (shuffle : List Tile → List Tile) (deck : GameTiles)
    (st : GState) (events : List InputEvent) :
    StepOutcome × List InputEvent :=
  match Game.actionOf st events with
  | Option.none => (StepOutcome.blocked, events)
  | Option.some a =>
      let events' := if st.need_input then events.tail else events
      if a = Action.quit then (StepOutcome.halt st, events')
      else
        match GState.update shuffle deck st a with
        | (StateResult.Continue s, _) => (StepOutcome.next s, events')
        | (StateResult.Skip, self') => (StepOutcome.next self', events')
        | (StateResult.ExitToStop, self') => (StepOutcome.halt self', events')

/-- The trace of `update` invocations performed by `Game::run` on a
scripted input source, bounded by `fuel` iterations: each entry is
the state and the action passed into its `update`. -/
def Game.runTrace (shuffle : List Tile → List Tile) (deck : GameTiles) :
    Nat → GState → List InputEvent → List (GState × Action)
  | 0, _, _ => []
  | fuel + 1, st, events =>
      match Game.actionOf st events with
      | Option.none => []
      | Option.some a =>
          if a = Action.quit then []
          else
            (st, a) ::
              (match GState.update shuffle deck st a with
                | (StateResult.Continue s, _) =>
                    Game.runTrace shuffle deck fuel s
                      (if st.need_input then events.tail else events)
                | (StateResult.Skip, self') =>
                    Game.runTrace shuffle deck fuel self'
                      (if st.need_input then events.tail else events)
                | (StateResult.ExitToStop, _) => [])

/-- Feeding one action into the top-level machine, installing the
result the way the driver loop does (`Option.none` = the loop
exits). -/
def feed (shuffle : List Tile → List Tile) (deck : GameTiles)
    (st : GState) (action : Action) : Option GState :=
  match GState.update shuffle deck st action with
  | (StateResult.Continue s, _) => Option.some s
  | (StateResult.Skip, self') => Option.some self'
  | (StateResult.ExitToStop, _) => Option.none

/-- Repeatedly feeding `Validate`, n times. -/
def feedValidateN (shuffle : List Tile → List Tile) (deck : GameTiles) :
    Nat → GState → Option GState
  | 0, st => Option.some st
  | n + 1, st =>
      match feed shuffle deck st Action.validate with
      | Option.some st' => feedValidateN shuffle deck n st'
      | Option.none => Option.none

/-! ## Draw-pool properties (`GameContext::select_random_tile`) -/

/-- C3: for every `GameContext` (and any permutation-valued shuffle),
`select_random_tile` returns `None` iff the pool is empty, and then
leaves the pool empty — so every later call returns `None` again;
when it returns `Some tile` the tile was an element of the pool and
the pool shrinks by exactly one, the remaining pool being a
permutation of the old pool minus that element — no call ever adds a
tile back. -/
theorem select_random_tile_spec (shuffle : List Tile → List Tile)
    (hperm : ∀ l, (shuffle l).Perm l) (ctx : GameContext) :
    ((ctx.select_random_tile shuffle).1 = Option.none ↔
      ctx.available_tiles = [])
    ∧ ((ctx.select_random_tile shuffle).1 = Option.none →
        ((ctx.select_random_tile shuffle).2).available_tiles = [])
    ∧ (∀ t, (ctx.select_random_tile shuffle).1 = Option.some t →
        t ∈ ctx.available_tiles
        ∧ ((ctx.select_random_tile shuffle).2).available_tiles.length + 1
            = ctx.available_tiles.length
        ∧ (t :: ((ctx.select_random_tile shuffle).2).available_tiles).Perm
            ctx.available_tiles) := by
  have hp := hperm ctx.available_tiles
  refine ⟨?_, ?_, ?_⟩
  · show (shuffle ctx.available_tiles).getLast? = Option.none ↔ _
    rw [List.getLast?_eq_none_iff]
    constructor
    · intro h
      have hlen := hp.length_eq
      rw [h] at hlen
      exact List.length_eq_zero.mp (by simpa using hlen.symm)
    · intro h
      rw [h]
      exact List.length_eq_zero.mp (by simpa using (hperm []).length_eq)
  · intro h
    show (shuffle ctx.available_tiles).dropLast = []
    have : shuffle ctx.available_tiles = [] :=
      List.getLast?_eq_none_iff.mp h
    rw [this]
    rfl
  · intro t ht
    have hne : shuffle ctx.available_tiles ≠ [] := by
      intro h
      rw [show (ctx.select_random_tile shuffle).1
          = (shuffle ctx.available_tiles).getLast? from rfl, h] at ht
      simp at ht
    have hlast : (shuffle ctx.available_tiles).getLast hne = t := by
      have := List.getLast?_eq_getLast (shuffle ctx.available_tiles) hne
      rw [show (ctx.select_random_tile shuffle).1
          = (shuffle ctx.available_tiles).getLast? from rfl, this] at ht
      exact (Option.some.injEq _ _).mp ht
    have hsplit : (shuffle ctx.available_tiles).dropLast ++ [t]
        = shuffle ctx.available_tiles := by
      rw [← hlast]
      exact List.dropLast_append_getLast hne
    refine ⟨?_, ?_, ?_⟩
    · exact hp.mem_iff.mp (hlast ▸ List.getLast_mem hne)
    · show (shuffle ctx.available_tiles).dropLast.length + 1 = _
      have hlen := hp.length_eq
      rw [List.length_dropLast]
      have : 0 < (shuffle ctx.available_tiles).length :=
        List.length_pos.mpr hne
      omega
    · show (t :: (shuffle ctx.available_tiles).dropLast).Perm _
      have h1 : (t :: (shuffle ctx.available_tiles).dropLast).Perm
          ((shuffle ctx.available_tiles).dropLast ++ [t]) :=
        (List.perm_append_singleton t _).symm
      rw [hsplit] at h1
      exact h1.trans hp

theorem select_random_tile_spec_witness :
    ((GameContext.mk [dummy_tile]).select_random_tile id).1 = Option.none ↔
      ([dummy_tile] : List Tile) = [] :=
  (select_random_tile_spec id (fun l => List.Perm.refl l) ⟨[dummy_tile]⟩).1

/-! ## The nested and top-level state machines -/

/-- C5: `SelectTileState::update_game` transitions to `PlaceTileState`
holding the drawn tile exactly when the context's random draw returns
a tile, and signals exit-to-stop exactly when the pool is empty; and
at this nested level every step returns exactly one of the two
outcomes `Continue` or `ExitToStop` — there is no skip outcome. -/
theorem select_tile_update_spec (shuffle : List Tile → List Tile)
    (a : Action) (ctx : GameContext) :
    (∀ t ctx', ctx.select_random_tile shuffle = (Option.some t, ctx') →
      SelectTileState.update_game shuffle a ctx
        = (PlayingStateResult.Continue (PlayingState.placeTileState t), ctx'))
    ∧ ((ctx.select_random_tile shuffle).1 = Option.none →
      SelectTileState.update_game shuffle a ctx
        = (PlayingStateResult.ExitToStop, (ctx.select_random_tile shuffle).2))
    ∧ ((∃ ns, (SelectTileState.update_game shuffle a ctx).1
          = PlayingStateResult.Continue ns)
        ∨ (SelectTileState.update_game shuffle a ctx).1
          = PlayingStateResult.ExitToStop) := by
  refine ⟨?_, ?_, ?_⟩
  · intro t ctx' h
    simp [SelectTileState.update_game, h]
  · intro h
    have hfull : ctx.select_random_tile shuffle
        = (Option.none, (ctx.select_random_tile shuffle).2) := by
      cases hres : ctx.select_random_tile shuffle with
      | mk o c =>
        rw [hres] at h
        simp at h
        rw [h]
    rw [show SelectTileState.update_game shuffle a ctx
        = match ctx.select_random_tile shuffle with
          | (Option.some tile, ctx') =>
              (PlayingStateResult.Continue (PlayingState.placeTileState tile), ctx')
          | (Option.none, ctx') => (PlayingStateResult.ExitToStop, ctx')
      from rfl, hfull]
  · rcases hres : ctx.select_random_tile shuffle with ⟨o, c⟩
    cases o with
    | none =>
      right
      simp [SelectTileState.update_game, hres]
    | some t =>
      left
      exact ⟨PlayingState.placeTileState t,
        by simp [SelectTileState.update_game, hres]⟩

theorem select_tile_update_spec_witness :
    SelectTileState.update_game id Action.validate ⟨[]⟩
      = (PlayingStateResult.ExitToStop,
          ((⟨[]⟩ : GameContext).select_random_tile id).2) :=
  (select_tile_update_spec id Action.validate ⟨[]⟩).2.1 rfl

/-- C4: for every playing-phase state and action, `PlayingPhase::update`
performs exactly one step of the nested machine: a nested
`Continue(new_sub_state)` maps to the outer result `Skip` while the
outer state stays a `PlayingPhase` with `new_sub_state` installed and
the stepped context retained; a nested exit-to-stop maps to the outer
result `Continue(StopState)`. -/
theorem playing_phase_update_spec (shuffle : List Tile → List Tile)
    (sub : PlayingState) (ctx : GameContext) (a : Action) :
    (∀ ns ctx', PlayingState.update_game shuffle sub a ctx
        = (PlayingStateResult.Continue ns, ctx') →
      PlayingPhase.update shuffle sub ctx a
        = (StateResult.Skip, GState.playing ns ctx'))
    ∧ (∀ ctx', PlayingState.update_game shuffle sub a ctx
        = (PlayingStateResult.ExitToStop, ctx') →
      PlayingPhase.update shuffle sub ctx a
        = (StateResult.Continue GState.stop, GState.playing sub ctx')) := by
  constructor
  · intro ns ctx' h
    simp [PlayingPhase.update, h]
  · intro ctx' h
    simp [PlayingPhase.update, h]

theorem playing_phase_update_spec_witness :
    PlayingPhase.update id (PlayingState.placeTileState dummy_tile) ⟨[]⟩
        Action.validate
      = (StateResult.Skip, GState.playing PlayingState.selectTileState ⟨[]⟩) :=
  (playing_phase_update_spec id (PlayingState.placeTileState dummy_tile) ⟨[]⟩
    Action.validate).1 PlayingState.selectTileState ⟨[]⟩ rfl

/-- C10: `PlaceTileState::update_game` returns
`Continue(SelectTileState)` for every action — `Action::None` and the
directional actions included, not only `Validate` — and leaves the
game context unchanged; consequently, under the driver loop's input
mapping, any accepted key press while a tile is displayed advances
the turn back to `SelectTileState`. -/
theorem place_tile_update_spec (shuffle : List Tile → List Tile) (t : Tile)
    (a : Action) (ctx : GameContext) :
    PlaceTileState.update_game t a ctx
      = (PlayingStateResult.Continue PlayingState.selectTileState, ctx)
    ∧ (∀ ev : InputEvent,
        PlayingPhase.update shuffle (PlayingState.placeTileState t) ctx
            (GState.handle_input
              (GState.playing (PlayingState.placeTileState t) ctx) ev)
          = (StateResult.Skip, GState.playing PlayingState.selectTileState ctx)) := by
  exact ⟨rfl, fun _ => rfl⟩

/-! ## Termination of the seeded session (Menu → ... → Stop) -/

theorem feed_select_some (shuffle : List Tile → List Tile) (deck : GameTiles)
    (pool : List Tile) (t : Tile)
    (hlast : (shuffle pool).getLast? = Option.some t) :
    feed shuffle deck (GState.playing PlayingState.selectTileState ⟨pool⟩)
        Action.validate
      = Option.some (GState.playing (PlayingState.placeTileState t)
          ⟨(shuffle pool).dropLast⟩) := by
  simp [feed, GState.update, PlayingPhase.update, PlayingState.update_game,
    SelectTileState.update_game, GameContext.select_random_tile, hlast]

theorem feed_select_stop (shuffle : List Tile → List Tile) (deck : GameTiles)
    (pool : List Tile) (hlast : (shuffle pool).getLast? = Option.none) :
    feed shuffle deck (GState.playing PlayingState.selectTileState ⟨pool⟩)
        Action.validate
      = Option.some GState.stop := by
  simp [feed, GState.update, PlayingPhase.update, PlayingState.update_game,
    SelectTileState.update_game, GameContext.select_random_tile, hlast]

theorem feed_place (shuffle : List Tile → List Tile) (deck : GameTiles)
    (t : Tile) (ctx : GameContext) :
    feed shuffle deck (GState.playing (PlayingState.placeTileState t) ctx)
        Action.validate
      = Option.some (GState.playing PlayingState.selectTileState ctx) := rfl

theorem feedValidateN_add (shuffle : List Tile → List Tile) (deck : GameTiles) :
    ∀ (m n : Nat) (st : GState),
      feedValidateN shuffle deck (m + n) st
        = match feedValidateN shuffle deck m st with
          | Option.some st' => feedValidateN shuffle deck n st'
          | Option.none => Option.none := by
  intro m
  induction m with
  | zero =>
    intro n st
    simp [feedValidateN]
  | succ m ih =>
    intro n st
    have harith : m + 1 + n = (m + n) + 1 := by omega
    rw [harith]
    show (match feed shuffle deck st Action.validate with
      | Option.some st' => feedValidateN shuffle deck (m + n) st'
      | Option.none => Option.none) = _
    cases hfeed : feed shuffle deck st Action.validate with
    | none => simp [feedValidateN, hfeed]
    | some st' =>
      simp only [feedValidateN, hfeed]
      exact ih n st'

theorem feedValidate_cycles (shuffle : List Tile → List Tile)
    (hperm : ∀ l, (shuffle l).Perm l) (deck : GameTiles) :
    ∀ (k : Nat) (pool : List Tile), k ≤ pool.length →
      ∃ pool' : List Tile, pool'.length = pool.length - k ∧
        feedValidateN shuffle deck (2 * k)
            (GState.playing PlayingState.selectTileState ⟨pool⟩)
          = Option.some (GState.playing PlayingState.selectTileState ⟨pool'⟩) := by
  intro k
  induction k with
  | zero => exact fun pool _ => ⟨pool, by omega, rfl⟩
  | succ k ih =>
    intro pool hk
    have hpoolne : pool ≠ [] := by
      intro h
      rw [h] at hk
      simp at hk
    have hne : shuffle pool ≠ [] := by
      intro h
      have hlen := (hperm pool).length_eq
      rw [h] at hlen
      exact hpoolne (List.length_eq_zero.mp (by simpa using hlen.symm))
    have hlast := List.getLast?_eq_getLast (shuffle pool) hne
    obtain ⟨pool', hplen, hrun⟩ := ih ((shuffle pool).dropLast)
      (by
        rw [List.length_dropLast]
        have := (hperm pool).length_eq
        omega)
    refine ⟨pool', ?_, ?_⟩
    · rw [hplen, List.length_dropLast]
      have := (hperm pool).length_eq
      omega
    · have h2 : 2 * (k + 1) = ((2 * k) + 1) + 1 := by omega
      rw [h2]
      simp only [feedValidateN,
        feed_select_some shuffle deck pool _ hlast,
        feed_place]
      exact hrun

/-- C6: starting from Menu with the session pool seeded with the
`deck` of N tiles, feeding `StartGame` enters
`PlayingPhase/SelectTileState` with that pool; repeatedly feeding
`Validate`, after `2k` steps (k ≤ N) the machine is back in
`SelectTileState` with exactly `N - k` tiles left, after `2k + 1`
steps (k < N) it holds a drawn tile in `PlaceTileState`, and after
exactly N `SelectTileState → PlaceTileState` cycles plus the final
empty draw (`2N + 1` steps) it reaches Stop; from Stop every further
`update`, with any action, yields exit again — an idempotent terminal
state. -/
theorem state_machine_termination (shuffle : List Tile → List Tile)
    (hperm : ∀ l, (shuffle l).Perm l) (deck : List Tile) :
    feed shuffle ⟨deck⟩ GState.menu Action.startGame
      = Option.some (GState.playing PlayingState.selectTileState ⟨deck⟩)
    ∧ (∀ k, k ≤ deck.length → ∃ pool : List Tile,
        pool.length = deck.length - k ∧
        feedValidateN shuffle ⟨deck⟩ (2 * k)
            (GState.playing PlayingState.selectTileState ⟨deck⟩)
          = Option.some (GState.playing PlayingState.selectTileState ⟨pool⟩))
    ∧ (∀ k, k < deck.length → ∃ (t : Tile) (pool : List Tile),
        feedValidateN shuffle ⟨deck⟩ (2 * k + 1)
            (GState.playing PlayingState.selectTileState ⟨deck⟩)
          = Option.some (GState.playing (PlayingState.placeTileState t) ⟨pool⟩))
    ∧ feedValidateN shuffle ⟨deck⟩ (2 * deck.length + 1)
        (GState.playing PlayingState.selectTileState ⟨deck⟩)
      = Option.some GState.stop
    ∧ (∀ a, GState.update shuffle ⟨deck⟩ GState.stop a
        = (StateResult.ExitToStop, GState.stop)) := by
  refine ⟨rfl, fun k => feedValidate_cycles shuffle hperm ⟨deck⟩ k deck, ?_, ?_,
    fun _ => rfl⟩
  · intro k hk
    obtain ⟨pool, hplen, hrun⟩ :=
      feedValidate_cycles shuffle hperm ⟨deck⟩ k deck (by omega)
    have hpoolne : pool ≠ [] := by
      intro h
      rw [h] at hplen
      simp at hplen
      omega
    have hne : shuffle pool ≠ [] := by
      intro h
      have hlen := (hperm pool).length_eq
      rw [h] at hlen
      exact hpoolne (List.length_eq_zero.mp (by simpa using hlen.symm))
    have hlast := List.getLast?_eq_getLast (shuffle pool) hne
    refine ⟨(shuffle pool).getLast hne, (shuffle pool).dropLast, ?_⟩
    rw [feedValidateN_add shuffle ⟨deck⟩ (2 * k) 1, hrun]
    simp only [feedValidateN, feed_select_some shuffle ⟨deck⟩ pool _ hlast]
  · obtain ⟨pool, hplen, hrun⟩ :=
      feedValidate_cycles shuffle hperm ⟨deck⟩ deck.length deck (Nat.le_refl _)
    have hpool : pool = [] := by
      apply List.length_eq_zero.mp
      omega
    rw [feedValidateN_add shuffle ⟨deck⟩ (2 * deck.length) 1, hrun, hpool]
    have hempty : shuffle [] = [] :=
      List.length_eq_zero.mp (by simpa using (hperm []).length_eq)
    have hlast : (shuffle ([] : List Tile)).getLast? = Option.none := by
      rw [hempty]
      rfl
    simp only [feedValidateN, feed_select_stop shuffle ⟨deck⟩ [] hlast]

theorem state_machine_termination_witness :
    feedValidateN id ⟨[dummy_tile]⟩ (2 * ([dummy_tile] : List Tile).length + 1)
        (GState.playing PlayingState.selectTileState ⟨[dummy_tile]⟩)
      = Option.some GState.stop :=
  (state_machine_termination id (fun l => List.Perm.refl l) [dummy_tile]).2.2.2.1

/-! ## The driver loop never updates on Quit -/

/-- C7: in every iteration of the driver loop, whenever the action
produced by the current state's input interpretation is `Quit`, the
loop terminates at once — the iteration halts with the current state
untouched (no transition) — and, over any whole bounded run, no
`update` invocation ever receives the `Quit` action. -/
theorem quit_terminates_loop (shuffle : List Tile → List Tile)
    (deck : GameTiles) (st : GState) (events : List InputEvent)
    (hq : Game.actionOf st events = Option.some Action.quit) :
    Game.loopStep shuffle deck st events
      = (StepOutcome.halt st, events.tail)
    ∧ ∀ (fuel : Nat) (st0 : GState) (evs : List InputEvent)
        (p : GState × Action),
        p ∈ Game.runTrace shuffle deck fuel st0 evs → p.2 ≠ Action.quit := by
  constructor
  · have hni : st.need_input = true := by
      cases hni : st.need_input with
      | false => simp [Game.actionOf, hni] at hq
      | true => rfl
    simp [Game.loopStep, hq, hni]
  · intro fuel
    induction fuel with
    | zero =>
      intro st0 evs p hp
      simp [Game.runTrace] at hp
    | succ fuel ih =>
      intro st0 evs p hp
      simp only [Game.runTrace] at hp
      cases hact : Game.actionOf st0 evs with
      | none => simp [hact] at hp
      | some a =>
        rw [hact] at hp
        by_cases haq : a = Action.quit
        · simp [haq] at hp
        · simp only [haq, if_false] at hp
          rcases List.mem_cons.mp hp with heq | hmem
          · rw [heq]
            exact haq
          · rcases hupd : GState.update shuffle deck st0 a with ⟨res, self'⟩
            rw [hupd] at hmem
            cases res with
            | Continue s => exact ih s _ p hmem
            | Skip => exact ih self' _ p hmem
            | ExitToStop => simp at hmem

theorem quit_terminates_loop_witness :
    Game.loopStep id ⟨[]⟩ GState.menu [InputEvent.quit]
      = (StepOutcome.halt GState.menu, ([InputEvent.quit] : List InputEvent).tail) :=
  (quit_terminates_loop id ⟨[]⟩ GState.menu [InputEvent.quit] rfl).1

theorem text_size_and_paint_witness :
    (Node.text ['A']).size = Size.new (strLen ['A']) 1 :=
  (text_size_and_paint ['A'] (Frame.new (Size.new 1 1)) Point.zero
    (Frame.new_WF (Size.new 1 1)) (by decide) (by decide)).1

theorem tile_size_and_paint_witness :
    (Node.tile dummy_tile).size = Size.new TILE_SIZE TILE_SIZE :=
  (tile_size_and_paint dummy_tile (Frame.new (Size.new 5 5)) Point.zero
    (Frame.new_WF (Size.new 5 5)) (by decide) (by decide)).1

end Carcasonne
